import Mathlib

/-!
Shallow embedding of the NBT primitive codec (`src/raw.rs`).

Modelling conventions:
* A byte is a `Nat` (< 256 whenever it was produced by a writer).
* An `io::Write` sink is modelled by the list of bytes a write produces.
* An `io::Read` source is modelled as a list of chunks (`Source`): each call to
  `read` delivers at most the head chunk (truncated to the requested size); an
  exhausted source, or an empty chunk, models a read call that returns 0 bytes.
* `byteorder`'s `read_exact`-based primitives are modelled by `readExact`
  (a zero-byte read makes the whole read fail, surfaced as an I/O error),
  while the string fill loop of `read_bare_string` is modelled by `readLoop`
  (a zero-byte read yields `IncompleteNbtValue`), mirroring lines 213-220.
* Signed machine integers are `Int` values encoded/decoded through their
  two's-complement bit patterns (`toTwos` / `fromTwos`).
* `f32`/`f64` are represented by their IEEE-754 bit patterns (a `Nat`),
  since `byteorder` writes/reads exactly the bit pattern.
* The `cesu8` crate's `to_java_cesu8` / `from_java_cesu8` are embedded over
  lists of Unicode scalar values (`ValidChar`).
-/

namespace Nbt

/-- Byte order policy, the `E: ByteOrder` parameter of the Rust functions. -/
inductive Endian where
  | be
  | le
deriving DecidableEq

/-- The error type of the crate (its `error` module is not part of the
primitive layer's source): `IoError` (any underlying I/O fault, including a
failed `read_exact`), `IncompleteNbtValue` (stream ended mid-string) and
the CESU-8 decoding error.  Modelled from the spec: section 7's three-way
error taxonomy. -/
inductive NbtError where
  | ioError
  | incompleteNbtValue
  | cesu8DecodingError
deriving DecidableEq

/-- An `io::Read` source: the list of byte chunks successive `read` calls
will deliver. -/
abbrev Source := List (List Nat)

/-- A source is well formed when no read call spuriously returns 0 bytes
while data remains. -/
def Good (src : Source) : Prop := ∀ c ∈ src, c ≠ ([] : List Nat)

/-- Little-endian byte decomposition: `w` bytes of `n`, least significant
first. -/
def leBytes : Nat → Nat → List Nat
  | 0, _ => []
  | w + 1, n => n % 256 :: leBytes w (n / 256)

/-- Recombine little-endian bytes into a value. -/
def leVal : List Nat → Nat
  | [] => 0
  | b :: bs => b + 256 * leVal bs

/-- The bytes `byteorder` emits for an unsigned `w`-byte value under byte
order `e`. -/
def ordBytes : Endian → Nat → Nat → List Nat
  | .le, w, n => leBytes w n
  | .be, w, n => (leBytes w n).reverse

/-- The value `byteorder` reads from `w` bytes under byte order `e`. -/
def ordVal : Endian → List Nat → Nat
  | .le, bs => leVal bs
  | .be, bs => leVal bs.reverse

/-- Two's-complement bit pattern of a signed `w`-bit integer. -/
def toTwos (w : Nat) (v : Int) : Nat := (v % ((2 ^ w : Nat) : Int)).toNat

/-- Signed value of a two's-complement `w`-bit pattern. -/
def fromTwos (w : Nat) (n : Nat) : Int :=
  if n < 2 ^ (w - 1) then (n : Int) else (n : Int) - ((2 ^ w : Nat) : Int)

/-- The effect of Rust's `as usize` cast on an `i32` value (64-bit target):
sign extension, i.e. reduction of the signed value modulo `2 ^ 64`. -/
def i32AsUsize (v : Int) : Nat := (v % ((2 ^ 64 : Nat) : Int)).toNat

/-- `std::io::Read::read_exact` over a chunked source: keep issuing `read`
calls until `k` bytes are gathered; a call that returns 0 bytes fails the
whole read (Rust's `UnexpectedEof`, an `io::Error`). -/
def readExact : Source → Nat → Option (List Nat × Source)
  | src, 0 => some ([], src)
  | [], _ + 1 => none
  | c :: cs, k + 1 =>
    if c.length = 0 then none
    else if c.length ≤ k + 1 then
      match readExact cs (k + 1 - c.length) with
      | none => none
      | some (more, src') => some (c ++ more, src')
    else some (c.take (k + 1), c.drop (k + 1) :: cs)

/-- The fill loop of `read_bare_string` (raw.rs lines 213-220): keep calling
`read` for the not-yet-filled part of the buffer; a call returning 0 bytes
yields `Error::IncompleteNbtValue`. -/
def readLoop : Source → Nat → Except NbtError (List Nat × Source)
  | src, 0 => .ok ([], src)
  | [], _ + 1 => .error .incompleteNbtValue
  | c :: cs, k + 1 =>
    if c.length = 0 then .error .incompleteNbtValue
    else if c.length ≤ k + 1 then
      match readLoop cs (k + 1 - c.length) with
      | .error err => .error err
      | .ok (more, src') => .ok (c ++ more, src')
    else .ok (c.take (k + 1), c.drop (k + 1) :: cs)

/-- The element loop of the `read_bare_*_array` functions: read `n` elements
in order with the scalar reader `readOne`; a failed scalar read surfaces as
the propagated I/O error. -/
def readElems {α : Type} (readOne : Source → Option (α × Source)) :
    Nat → Source → Except NbtError (List α × Source)
  | 0, src => .ok ([], src)
  | n + 1, src =>
    match readOne src with
    | none => .error .ioError
    | some (v, src') =>
      match readElems readOne n src' with
      | .error err => .error err
      | .ok (vs, src'') => .ok (v :: vs, src'')

/-! ### The CESU-8 ("Java modified UTF-8") codec of the `cesu8` crate -/

/-- A Unicode scalar value (what a Rust `char` can hold). -/
def ValidChar (c : Nat) : Prop := c < 0xD800 ∨ (0xE000 ≤ c ∧ c < 0x110000)

instance (c : Nat) : Decidable (ValidChar c) := by
  unfold ValidChar; infer_instance

/-- A UTF-8 continuation byte. -/
abbrev isCont (b : Nat) : Prop := 0x80 ≤ b ∧ b < 0xC0

/-- The three-byte UTF-8 encoding of a code unit `c < 0x10000`. -/
def utf8Three (c : Nat) : List Nat :=
  [0xE0 + c / 4096, 0x80 + c / 64 % 64, 0x80 + c % 64]

/-- Java modified UTF-8 encoding of one Unicode scalar value: NUL becomes
`C0 80`, BMP characters are standard UTF-8, supplementary characters become
the two three-byte encodings of their UTF-16 surrogate pair. -/
def encodeChar (c : Nat) : List Nat :=
  if c = 0 then [0xC0, 0x80]
  else if c < 0x80 then [c]
  else if c < 0x800 then [0xC0 + c / 64, 0x80 + c % 64]
  else if c < 0x10000 then utf8Three c
  else utf8Three (0xD800 + (c - 0x10000) / 1024) ++
       utf8Three (0xDC00 + (c - 0x10000) % 1024)

/-- `cesu8::to_java_cesu8`: the modified-UTF-8 byte form of a string (the
string itself is the list of its Unicode scalar values). -/
def to_java_cesu8 (s : List Nat) : List Nat := (s.map encodeChar).flatten

/-- Strict UTF-8 decoding (Rust's `str::from_utf8`), rejecting overlong
forms, surrogates and values above `0x10FFFF`: the fast path of
`cesu8::from_java_cesu8`.  The available continuation bytes are peeled off
one match at a time; a leading byte whose class needs more bytes than
remain, or that belongs to no class, yields `none`, exactly as in the
table-driven Rust validator. -/
def utf8Decode : List Nat → Option (List Nat)
  | [] => some []
  | b :: bs =>
    if b < 0x80 then (utf8Decode bs).map (fun s => b :: s)
    else
      match bs with
      | [] => none
      | b2 :: bs2 =>
        if 0xC2 ≤ b ∧ b ≤ 0xDF then
          if isCont b2 then
            (utf8Decode bs2).map (fun s => ((b - 0xC0) * 64 + (b2 - 0x80)) :: s)
          else none
        else
          match bs2 with
          | [] => none
          | b3 :: bs3 =>
            if 0xE0 ≤ b ∧ b ≤ 0xEF then
              if isCont b2 ∧ isCont b3 ∧ (b = 0xE0 → 0xA0 ≤ b2) ∧ (b = 0xED → b2 < 0xA0) then
                (utf8Decode bs3).map
                  (fun s => ((b - 0xE0) * 4096 + (b2 - 0x80) * 64 + (b3 - 0x80)) :: s)
              else none
            else
              match bs3 with
              | [] => none
              | b4 :: bs4 =>
                if 0xF0 ≤ b ∧ b ≤ 0xF4 then
                  if isCont b2 ∧ isCont b3 ∧ isCont b4 ∧
                      (b = 0xF0 → 0x90 ≤ b2) ∧ (b = 0xF4 → b2 < 0x90) then
                    (utf8Decode bs4).map
                      (fun s => ((b - 0xF0) * 262144 + (b2 - 0x80) * 4096 +
                                 (b3 - 0x80) * 64 + (b4 - 0x80)) :: s)
                  else none
                else none

/-- The slow path of `cesu8::from_java_cesu8`: CESU-8 decoding, where
two-byte sequences start at `0xC0` (so `C0 80` yields NUL), `0xED`-led
three-byte sequences with a second byte ≥ `0xA0` must form a six-byte
surrogate pair (combined by the crate's `dec_surrogates`), and four-byte
sequences are rejected. -/
def cesu8Decode : List Nat → Option (List Nat)
  | [] => some []
  | b :: bs =>
    if b < 0x80 then (cesu8Decode bs).map (fun s => b :: s)
    else
      match bs with
      | [] => none
      | b2 :: bs2 =>
        if 0xC0 ≤ b ∧ b ≤ 0xDF then
          if isCont b2 then
            (cesu8Decode bs2).map (fun s => ((b - 0xC0) * 64 + (b2 - 0x80)) :: s)
          else none
        else
          match bs2 with
          | [] => none
          | b3 :: bs3 =>
            if 0xE0 ≤ b ∧ b ≤ 0xEF then
              if isCont b2 ∧ isCont b3 then
                if b = 0xED ∧ 0xA0 ≤ b2 then
                  match bs3 with
                  | b4 :: b5 :: b6 :: bs6 =>
                    if b4 = 0xED ∧ isCont b5 ∧ 0xB0 ≤ b5 ∧ isCont b6 then
                      (cesu8Decode bs6).map (fun s =>
                        (0x10000 +
                          ((0xD000 + (b2 - 0x80) * 64 + (b3 - 0x80)) - 0xD800) * 1024 +
                          ((0xD000 + (b5 - 0x80) * 64 + (b6 - 0x80)) - 0xDC00)) :: s)
                    else none
                  | _ => none
                else
                  (cesu8Decode bs3).map
                    (fun s => ((b - 0xE0) * 4096 + (b2 - 0x80) * 64 + (b3 - 0x80)) :: s)
              else none
            else none

/-- `cesu8::from_java_cesu8`: first try the plain-UTF-8 fast path, then the
CESU-8 decode loop. -/
def from_java_cesu8 (bs : List Nat) : Option (List Nat) :=
  match utf8Decode bs with
  | some s => some s
  | none => cesu8Decode bs

/-! ### The write primitives (raw.rs lines 14-102) -/

/-- `close_nbt`: a single `0x00` byte. -/
def close_nbt : List Nat := [0x00]

/-- `write_bare_byte` (line 21). -/
def write_bare_byte (v : Int) : List Nat := leBytes 1 (toTwos 8 v)

/-- `write_bare_short` (line 28). -/
def write_bare_short (e : Endian) (v : Int) : List Nat := ordBytes e 2 (toTwos 16 v)

/-- `write_bare_int` (line 35). -/
def write_bare_int (e : Endian) (v : Int) : List Nat := ordBytes e 4 (toTwos 32 v)

/-- `write_bare_long` (line 42). -/
def write_bare_long (e : Endian) (v : Int) : List Nat := ordBytes e 8 (toTwos 64 v)

/-- `write_bare_float` (line 49); `bits` is the IEEE-754 bit pattern of the
`f32`, which is exactly what `byteorder::write_f32` serializes. -/
def write_bare_float (e : Endian) (bits : Nat) : List Nat := ordBytes e 4 (bits % 2 ^ 32)

/-- `write_bare_double` (line 56). -/
def write_bare_double (e : Endian) (bits : Nat) : List Nat := ordBytes e 8 (bits % 2 ^ 64)

/-- `write_bare_byte_array` (line 63): 4-byte count `value.len() as i32`,
then each element. -/
def write_bare_byte_array (e : Endian) (value : List Int) : List Nat :=
  ordBytes e 4 (toTwos 32 (value.length : Int)) ++ (value.map write_bare_byte).flatten

/-- `write_bare_int_array` (line 74). -/
def write_bare_int_array (e : Endian) (value : List Int) : List Nat :=
  ordBytes e 4 (toTwos 32 (value.length : Int)) ++ (value.map (write_bare_int e)).flatten

/-- `write_bare_long_array` (line 85). -/
def write_bare_long_array (e : Endian) (value : List Int) : List Nat :=
  ordBytes e 4 (toTwos 32 (value.length : Int)) ++ (value.map (write_bare_long e)).flatten

/-- `write_bare_string` (line 96): CESU-8 encode, write the encoded byte
length as `encoded.len() as u16`, then the encoded bytes. -/
def write_bare_string (e : Endian) (value : List Nat) : List Nat :=
  ordBytes e 2 ((to_java_cesu8 value).length % 2 ^ 16) ++ to_java_cesu8 value

/-! ### The read primitives (raw.rs lines 108-224) -/

/-- `read_bare_byte` (line 124). -/
def read_bare_byte (src : Source) : Except NbtError (Int × Source) :=
  match readExact src 1 with
  | none => .error .ioError
  | some (bs, src') => .ok (fromTwos 8 (leVal bs), src')

/-- `read_bare_short` (line 131). -/
def read_bare_short (e : Endian) (src : Source) : Except NbtError (Int × Source) :=
  match readExact src 2 with
  | none => .error .ioError
  | some (bs, src') => .ok (fromTwos 16 (ordVal e bs), src')

/-- `read_bare_int` (line 138). -/
def read_bare_int (e : Endian) (src : Source) : Except NbtError (Int × Source) :=
  match readExact src 4 with
  | none => .error .ioError
  | some (bs, src') => .ok (fromTwos 32 (ordVal e bs), src')

/-- `read_bare_long` (line 145). -/
def read_bare_long (e : Endian) (src : Source) : Except NbtError (Int × Source) :=
  match readExact src 8 with
  | none => .error .ioError
  | some (bs, src') => .ok (fromTwos 64 (ordVal e bs), src')

/-- `read_bare_float` (line 152), returning the IEEE-754 bit pattern. -/
def read_bare_float (e : Endian) (src : Source) : Except NbtError (Nat × Source) :=
  match readExact src 4 with
  | none => .error .ioError
  | some (bs, src') => .ok (ordVal e bs, src')

/-- `read_bare_double` (line 159). -/
def read_bare_double (e : Endian) (src : Source) : Except NbtError (Nat × Source) :=
  match readExact src 8 with
  | none => .error .ioError
  | some (bs, src') => .ok (ordVal e bs, src')

/-- `read_bare_byte_array` (line 166): read the 4-byte signed count, cast it
with `as usize`, then read that many bytes. -/
def read_bare_byte_array (e : Endian) (src : Source) : Except NbtError (List Int × Source) :=
  match readExact src 4 with
  | none => .error .ioError
  | some (bs, src') =>
    readElems (fun s => (readExact s 1).map (fun r => (fromTwos 8 (leVal r.1), r.2)))
      (i32AsUsize (fromTwos 32 (ordVal e bs))) src'

/-- `read_bare_int_array` (line 180). -/
def read_bare_int_array (e : Endian) (src : Source) : Except NbtError (List Int × Source) :=
  match readExact src 4 with
  | none => .error .ioError
  | some (bs, src') =>
    readElems (fun s => (readExact s 4).map (fun r => (fromTwos 32 (ordVal e r.1), r.2)))
      (i32AsUsize (fromTwos 32 (ordVal e bs))) src'

/-- `read_bare_long_array` (line 194). -/
def read_bare_long_array (e : Endian) (src : Source) : Except NbtError (List Int × Source) :=
  match readExact src 4 with
  | none => .error .ioError
  | some (bs, src') =>
    readElems (fun s => (readExact s 8).map (fun r => (fromTwos 64 (ordVal e r.1), r.2)))
      (i32AsUsize (fromTwos 32 (ordVal e bs))) src'

/-- `read_bare_string` (line 206): unsigned 2-byte length, the `len == 0`
short-circuit, the fill loop, then CESU-8 decoding. -/
def read_bare_string (e : Endian) (src : Source) : Except NbtError (List Nat × Source) :=
  match readExact src 2 with
  | none => .error .ioError
  | some (bs, src1) =>
    let len := ordVal e bs
    if len = 0 then .ok ([], src1)
    else
      match readLoop src1 len with
      | .error err => .error err
      | .ok (bytes, src2) =>
        match from_java_cesu8 bytes with
        | none => .error .cesu8DecodingError
        | some s => .ok (s, src2)

/-- `emit_next_header` (line 108): one tag byte; tag `0x00` yields the empty
name, any other tag is followed by a string. -/
def emit_next_header (e : Endian) (src : Source) :
    Except NbtError ((Nat × List Nat) × Source) :=
  match readExact src 1 with
  | none => .error .ioError
  | some (bs, src1) =>
    let tag := leVal bs
    if tag = 0 then .ok ((tag, []), src1)
    else
      match read_bare_string e src1 with
      | .error err => .error err
      | .ok (name, src2) => .ok ((tag, name), src2)

/-! ### Arithmetic facts about the byte codecs -/

theorem leBytes_length (w n : Nat) : (leBytes w n).length = w := by
  induction w generalizing n with
  | zero => rfl
  | succ w ih => simp [leBytes, ih]

theorem ordBytes_length (e : Endian) (w n : Nat) : (ordBytes e w n).length = w := by
  cases e <;> simp [ordBytes, leBytes_length]

theorem leVal_leBytes (w n : Nat) : leVal (leBytes w n) = n % 2 ^ (8 * w) := by
  induction w generalizing n with
  | zero => simp [leBytes, leVal, Nat.mod_one]
  | succ w ih =>
    have hpow : 2 ^ (8 * (w + 1)) = 256 * 2 ^ (8 * w) := by
      rw [Nat.mul_succ, Nat.pow_add]; ring
    have hdvd : (256 : Nat) ∣ 256 * 2 ^ (8 * w) := Dvd.intro _ rfl
    have h1 : n / 256 % 2 ^ (8 * w) = n % (256 * 2 ^ (8 * w)) / 256 :=
      (Nat.mod_mul_right_div_self n 256 (2 ^ (8 * w))).symm
    have h2 : n % (256 * 2 ^ (8 * w)) % 256 = n % 256 := by
      rw [Nat.mod_mod_of_dvd n hdvd]
    have h3 := Nat.div_add_mod (n % (256 * 2 ^ (8 * w))) 256
    simp only [leBytes, leVal, ih, hpow]
    omega

theorem ordVal_ordBytes (e : Endian) (w n : Nat) :
    ordVal e (ordBytes e w n) = n % 2 ^ (8 * w) := by
  cases e <;> simp [ordVal, ordBytes, List.reverse_reverse, leVal_leBytes]

theorem toTwos_lt (w : Nat) (v : Int) : toTwos w v < 2 ^ w := by
  have hpos : (0 : Int) < ((2 ^ w : Nat) : Int) := by positivity
  have h1 := Int.emod_nonneg v (ne_of_gt hpos)
  have h2 := Int.emod_lt_of_pos v hpos
  unfold toTwos
  omega

theorem toTwos_nonneg_eq (w : Nat) (v : Int) (h0 : 0 ≤ v) (h : v < ((2 ^ w : Nat) : Int)) :
    toTwos w v = v.toNat := by
  unfold toTwos
  rw [Int.emod_eq_of_lt h0 h]

theorem fromTwos_toTwos (w : Nat) (hw : 1 ≤ w) (v : Int)
    (h1 : -((2 ^ (w - 1) : Nat) : Int) ≤ v) (h2 : v < ((2 ^ (w - 1) : Nat) : Int)) :
    fromTwos w (toTwos w v) = v := by
  have hsplit : 2 ^ w = 2 ^ (w - 1) * 2 := by
    conv_lhs => rw [show w = (w - 1) + 1 by omega]
    rw [Nat.pow_succ]
  have hAB : ((2 ^ (w - 1) : Nat) : Int) * 2 = ((2 ^ w : Nat) : Int) := by
    rw [hsplit]; push_cast; ring
  have hcase : v % ((2 ^ w : Nat) : Int) = v ∨
      v % ((2 ^ w : Nat) : Int) = v + ((2 ^ w : Nat) : Int) := by
    rcases le_or_lt 0 v with hv | hv
    · left; exact Int.emod_eq_of_lt hv (by omega)
    · right
      have hmod := Int.add_mul_emod_self_left v ((2 ^ w : Nat) : Int) 1
      rw [mul_one] at hmod
      rw [← hmod]
      exact Int.emod_eq_of_lt (by omega) (by omega)
  unfold fromTwos toTwos
  rcases hcase with hc | hc <;> rw [hc] <;> split_ifs <;> omega

theorem i32AsUsize_of_nonneg (v : Int) (h0 : 0 ≤ v) (h : v < ((2 ^ 64 : Nat) : Int)) :
    i32AsUsize v = v.toNat := by
  unfold i32AsUsize
  rw [Int.emod_eq_of_lt h0 h]

theorem i32AsUsize_of_neg (v : Int) (h0 : -((2 ^ 64 : Nat) : Int) ≤ v) (h : v < 0) :
    i32AsUsize v = (((2 ^ 64 : Nat) : Int) + v).toNat := by
  unfold i32AsUsize
  have hmod := Int.add_mul_emod_self_left v ((2 ^ 64 : Nat) : Int) 1
  rw [mul_one] at hmod
  rw [← hmod]
  rw [Int.emod_eq_of_lt (by omega) (by omega)]
  omega

/-! ### Facts about the chunked-source read loops -/

theorem Good_nil (src : Source) (hg : Good src) (hj : src.flatten = []) : src = [] := by
  cases src with
  | nil => rfl
  | cons c cs =>
    exfalso
    have hc : c ≠ ([] : List Nat) := hg c (List.mem_cons_self c cs)
    rw [List.flatten_cons] at hj
    exact hc (List.append_eq_nil.mp hj).1

theorem readExact_good : ∀ (src : Source) (k : Nat), Good src →
    k ≤ src.flatten.length →
    ∃ src', readExact src k = some (src.flatten.take k, src') ∧
      src'.flatten = src.flatten.drop k ∧ Good src' := by
  intro src
  induction src with
  | nil =>
    intro k hg hk
    simp only [List.flatten_nil, List.length_nil, Nat.le_zero] at hk
    subst hk
    exact ⟨[], rfl, rfl, hg⟩
  | cons c cs ih =>
    intro k hg hk
    match k with
    | 0 => exact ⟨c :: cs, rfl, rfl, hg⟩
    | k + 1 =>
      have hc : c ≠ ([] : List Nat) := hg c (List.mem_cons_self c cs)
      have hclen : ¬ c.length = 0 := fun h => hc (List.eq_nil_of_length_eq_zero h)
      have hgcs : Good cs := fun x hx => hg x (List.mem_cons_of_mem c hx)
      rw [List.flatten_cons, List.length_append] at hk
      by_cases hle : c.length ≤ k + 1
      · obtain ⟨src', heq, hj, hg'⟩ := ih (k + 1 - c.length) hgcs (by omega)
        refine ⟨src', ?_, ?_, hg'⟩
        · simp only [readExact, if_neg hclen, if_pos hle, heq, List.flatten_cons,
            List.take_append_eq_append_take, List.take_of_length_le hle]
        · simp only [hj, List.flatten_cons, List.drop_append_eq_append_drop,
            List.drop_of_length_le hle, List.nil_append]
      · refine ⟨c.drop (k + 1) :: cs, ?_, ?_, ?_⟩
        · have h0 : k + 1 - c.length = 0 := by omega
          simp only [readExact, if_neg hclen, if_neg hle, List.flatten_cons,
            List.take_append_eq_append_take, h0, List.take_zero, List.append_nil]
        · have h0 : k + 1 - c.length = 0 := by omega
          simp only [List.flatten_cons, List.drop_append_eq_append_drop, h0,
            List.drop_zero]
        · intro x hx
          rcases List.mem_cons.mp hx with hx | hx
          · subst hx
            apply List.ne_nil_of_length_pos
            rw [List.length_drop]
            omega
          · exact hgcs x hx

theorem readExact_some : ∀ (src : Source) (k : Nat) (bs : List Nat) (src' : Source),
    readExact src k = some (bs, src') →
    bs.length = k ∧ src'.flatten.length + k = src.flatten.length := by
  intro src
  induction src with
  | nil =>
    intro k bs src' h
    match k with
    | 0 =>
      simp only [readExact, Option.some.injEq, Prod.mk.injEq] at h
      obtain ⟨h1, h2⟩ := h
      subst h1; subst h2
      simp
    | k + 1 => exact absurd h (by simp [readExact])
  | cons c cs ih =>
    intro k bs src' h
    match k with
    | 0 =>
      simp only [readExact, Option.some.injEq, Prod.mk.injEq] at h
      obtain ⟨h1, h2⟩ := h
      subst h1; subst h2
      simp
    | k + 1 =>
      simp only [readExact] at h
      by_cases hclen : c.length = 0
      · rw [if_pos hclen] at h; exact absurd h (by simp)
      · rw [if_neg hclen] at h
        by_cases hle : c.length ≤ k + 1
        · rw [if_pos hle] at h
          cases heq : readExact cs (k + 1 - c.length) with
          | none => rw [heq] at h; exact absurd h (by simp)
          | some r =>
            obtain ⟨more, src''⟩ := r
            rw [heq] at h
            simp only [Option.some.injEq, Prod.mk.injEq] at h
            obtain ⟨h1, h2⟩ := h
            obtain ⟨hlen, hflat⟩ := ih (k + 1 - c.length) more src'' heq
            subst h1; subst h2
            constructor
            · rw [List.length_append]; omega
            · rw [List.flatten_cons, List.length_append]; omega
        · rw [if_neg hle] at h
          simp only [Option.some.injEq, Prod.mk.injEq] at h
          obtain ⟨h1, h2⟩ := h
          subst h1; subst h2
          constructor
          · rw [List.length_take_of_le (by omega)]
          · simp only [List.flatten_cons, List.length_append, List.length_drop]
            omega

theorem readExact_none (src : Source) (k : Nat) (h : src.flatten.length < k) :
    readExact src k = none := by
  cases heq : readExact src k with
  | none => rfl
  | some r =>
    obtain ⟨hl, hf⟩ := readExact_some src k r.1 r.2 (by rw [heq])
    omega

theorem readLoop_good : ∀ (src : Source) (n : Nat), Good src →
    n ≤ src.flatten.length →
    ∃ src', readLoop src n = .ok (src.flatten.take n, src') ∧
      src'.flatten = src.flatten.drop n ∧ Good src' := by
  intro src
  induction src with
  | nil =>
    intro n hg hn
    simp only [List.flatten_nil, List.length_nil, Nat.le_zero] at hn
    subst hn
    exact ⟨[], rfl, rfl, hg⟩
  | cons c cs ih =>
    intro n hg hn
    match n with
    | 0 => exact ⟨c :: cs, rfl, rfl, hg⟩
    | n + 1 =>
      have hc : c ≠ ([] : List Nat) := hg c (List.mem_cons_self c cs)
      have hclen : ¬ c.length = 0 := fun h => hc (List.eq_nil_of_length_eq_zero h)
      have hgcs : Good cs := fun x hx => hg x (List.mem_cons_of_mem c hx)
      rw [List.flatten_cons, List.length_append] at hn
      by_cases hle : c.length ≤ n + 1
      · obtain ⟨src', heq, hj, hg'⟩ := ih (n + 1 - c.length) hgcs (by omega)
        refine ⟨src', ?_, ?_, hg'⟩
        · simp only [readLoop, if_neg hclen, if_pos hle, heq, List.flatten_cons,
            List.take_append_eq_append_take, List.take_of_length_le hle]
        · simp only [hj, List.flatten_cons, List.drop_append_eq_append_drop,
            List.drop_of_length_le hle, List.nil_append]
      · refine ⟨c.drop (n + 1) :: cs, ?_, ?_, ?_⟩
        · have h0 : n + 1 - c.length = 0 := by omega
          simp only [readLoop, if_neg hclen, if_neg hle, List.flatten_cons,
            List.take_append_eq_append_take, h0, List.take_zero, List.append_nil]
        · have h0 : n + 1 - c.length = 0 := by omega
          simp only [List.flatten_cons, List.drop_append_eq_append_drop, h0,
            List.drop_zero]
        · intro x hx
          rcases List.mem_cons.mp hx with hx | hx
          · subst hx
            apply List.ne_nil_of_length_pos
            rw [List.length_drop]
            omega
          · exact hgcs x hx

theorem readLoop_short : ∀ (src : Source) (n : Nat), 0 < n →
    src.flatten.length < n → readLoop src n = .error .incompleteNbtValue := by
  intro src
  induction src with
  | nil =>
    intro n hpos _
    match n with
    | n + 1 => rfl
  | cons c cs ih =>
    intro n hpos hlt
    rw [List.flatten_cons, List.length_append] at hlt
    match n with
    | n + 1 =>
      by_cases hclen : c.length = 0
      · simp only [readLoop, if_pos hclen]
      · have hle : c.length ≤ n + 1 := by omega
        have hrec := ih (n + 1 - c.length) (by omega) (by omega)
        simp only [readLoop, if_neg hclen, if_pos hle, hrec]

theorem readLoop_emptyChunk : ∀ (pre : Source) (n : Nat) (post : Source),
    pre.flatten.length < n →
    readLoop (pre ++ ([] : List Nat) :: post) n = .error .incompleteNbtValue := by
  intro pre
  induction pre with
  | nil =>
    intro n post hn
    simp only [List.flatten_nil, List.length_nil] at hn
    match n with
    | n + 1 => simp [readLoop]
  | cons c pre' ih =>
    intro n post hn
    rw [List.flatten_cons, List.length_append] at hn
    match n with
    | n + 1 =>
      by_cases hclen : c.length = 0
      · simp only [List.cons_append, readLoop, if_pos hclen]
      · have hle : c.length ≤ n + 1 := by omega
        have hrec := ih (n + 1 - c.length) post (by omega)
        simp only [List.cons_append, readLoop, if_neg hclen, if_pos hle,
          List.append_eq, hrec]

/-! ### Facts about the array element loop -/

theorem readElems_ok (w : Nat) (dec : List Nat → Int) (enc : Int → List Nat) :
    ∀ (xs : List Int) (rest : List Nat) (src : Source), Good src →
    src.flatten = (xs.map enc).flatten ++ rest →
    (∀ v ∈ xs, (enc v).length = w ∧ dec (enc v) = v) →
    ∃ src', readElems (fun s => (readExact s w).map (fun r => (dec r.1, r.2)))
        xs.length src = .ok (xs, src') ∧ src'.flatten = rest ∧ Good src' := by
  intro xs
  induction xs with
  | nil =>
    intro rest src hg hj _
    refine ⟨src, rfl, ?_, hg⟩
    simpa using hj
  | cons v xs' ih =>
    intro rest src hg hj hvals
    obtain ⟨hw, hdec⟩ := hvals v (List.mem_cons_self v xs')
    have hj' : src.flatten = enc v ++ ((xs'.map enc).flatten ++ rest) := by
      simpa [List.append_assoc] using hj
    have hwlen : w ≤ src.flatten.length := by
      rw [hj', List.length_append]
      omega
    obtain ⟨src1, hex, hj1, hg1⟩ := readExact_good src w hg hwlen
    have htake : src.flatten.take w = enc v := by
      rw [hj', List.take_append_eq_append_take, List.take_of_length_le (by omega),
        Nat.sub_eq_zero_of_le (by omega), List.take_zero, List.append_nil]
    have hdrop : src1.flatten = (xs'.map enc).flatten ++ rest := by
      rw [hj1, hj', List.drop_append_eq_append_drop, List.drop_of_length_le (by omega),
        Nat.sub_eq_zero_of_le (by omega), List.drop_zero, List.nil_append]
    obtain ⟨src', hrec, hj2, hg2⟩ :=
      ih rest src1 hg1 hdrop (fun x hx => hvals x (List.mem_cons_of_mem v hx))
    refine ⟨src', ?_, hj2, hg2⟩
    simp only [List.length_cons, readElems, hex, Option.map_some', htake, hdec, hrec]

theorem readElems_short (w : Nat) (dec : List Nat → Int) :
    ∀ (n : Nat) (src : Source), src.flatten.length < w * n →
    readElems (fun s => (readExact s w).map (fun r => (dec r.1, r.2))) n src =
      .error .ioError := by
  intro n
  induction n with
  | zero =>
    intro src h
    omega
  | succ n ih =>
    intro src h
    cases hex : readExact src w with
    | none => simp only [readElems, hex, Option.map_none']
    | some r =>
      obtain ⟨hl, hf⟩ := readExact_some src w r.1 r.2 (by rw [hex])
      have hrec := ih r.2 (by
        have : w * (n + 1) = w * n + w := by ring
        omega)
      simp only [readElems, hex, Option.map_some', hrec]

/-! ### Shape of the modified-UTF-8 encoder -/

theorem encodeChar_eq_nul : encodeChar 0 = [0xC0, 0x80] := rfl

theorem encodeChar_eq_ascii (c : Nat) (h0 : c ≠ 0) (h : c < 0x80) :
    encodeChar c = [c] := by
  unfold encodeChar
  rw [if_neg h0, if_pos h]

theorem encodeChar_eq_two (c : Nat) (h1 : 0x80 ≤ c) (h2 : c < 0x800) :
    encodeChar c = [0xC0 + c / 64, 0x80 + c % 64] := by
  unfold encodeChar
  rw [if_neg (by omega), if_neg (by omega), if_pos h2]

theorem encodeChar_eq_three (c : Nat) (h1 : 0x800 ≤ c) (h2 : c < 0x10000) :
    encodeChar c = utf8Three c := by
  unfold encodeChar
  rw [if_neg (by omega), if_neg (by omega), if_neg (by omega), if_pos h2]

theorem encodeChar_eq_pair (c : Nat) (h1 : 0x10000 ≤ c) :
    encodeChar c = utf8Three (0xD800 + (c - 0x10000) / 1024) ++
      utf8Three (0xDC00 + (c - 0x10000) % 1024) := by
  unfold encodeChar
  rw [if_neg (by omega), if_neg (by omega), if_neg (by omega), if_neg (by omega)]

theorem encodeChar_ne_nil (c : Nat) : encodeChar c ≠ [] := by
  unfold encodeChar
  split_ifs <;> simp [utf8Three]

theorem to_java_cesu8_nil_iff (s : List Nat) : to_java_cesu8 s = [] ↔ s = [] := by
  constructor
  · intro h
    cases s with
    | nil => rfl
    | cons c s' =>
      exfalso
      unfold to_java_cesu8 at h
      rw [List.map_cons, List.flatten_cons] at h
      exact encodeChar_ne_nil c (List.append_eq_nil.mp h).1
  · intro h
    subst h
    rfl

/-! ### Decoding an encoded character: the CESU-8 slow path -/

theorem cesu8Decode_three (u : Nat) (h1 : 0x800 ≤ u) (h2 : u < 0x10000)
    (hns : u < 0xD800 ∨ 0xE000 ≤ u) (rest : List Nat) :
    cesu8Decode (utf8Three u ++ rest) = (cesu8Decode rest).map (fun s => u :: s) := by
  have ha : ¬ (0xE0 + u / 4096 < 0x80) := by omega
  have hb : ¬ (0xC0 ≤ 0xE0 + u / 4096 ∧ 0xE0 + u / 4096 ≤ 0xDF) := by omega
  have hcnd : 0xE0 ≤ 0xE0 + u / 4096 ∧ 0xE0 + u / 4096 ≤ 0xEF := by omega
  have hcont : isCont (0x80 + u / 64 % 64) ∧ isCont (0x80 + u % 64) :=
    ⟨⟨by omega, by omega⟩, ⟨by omega, by omega⟩⟩
  have hsur : ¬ (0xE0 + u / 4096 = 0xED ∧ 0xA0 ≤ 0x80 + u / 64 % 64) := by omega
  have hv : (0xE0 + u / 4096 - 0xE0) * 4096 + (0x80 + u / 64 % 64 - 0x80) * 64 +
      (0x80 + u % 64 - 0x80) = u := by omega
  simp only [utf8Three, List.cons_append, List.nil_append]
  rw [cesu8Decode.eq_def]
  simp only [if_neg ha, if_neg hb, if_pos hcnd, if_pos hcont, if_neg hsur, hv]

theorem cesu8Decode_pair (h l : Nat) (hh1 : 0xD800 ≤ h) (hh2 : h < 0xDC00)
    (hl1 : 0xDC00 ≤ l) (hl2 : l < 0xE000) (rest : List Nat) :
    cesu8Decode (utf8Three h ++ (utf8Three l ++ rest)) =
      (cesu8Decode rest).map
        (fun s => (0x10000 + (h - 0xD800) * 1024 + (l - 0xDC00)) :: s) := by
  have ha : ¬ (0xE0 + h / 4096 < 0x80) := by omega
  have hb : ¬ (0xC0 ≤ 0xE0 + h / 4096 ∧ 0xE0 + h / 4096 ≤ 0xDF) := by omega
  have hcnd : 0xE0 ≤ 0xE0 + h / 4096 ∧ 0xE0 + h / 4096 ≤ 0xEF := by omega
  have hcont : isCont (0x80 + h / 64 % 64) ∧ isCont (0x80 + h % 64) :=
    ⟨⟨by omega, by omega⟩, ⟨by omega, by omega⟩⟩
  have hsur : 0xE0 + h / 4096 = 0xED ∧ 0xA0 ≤ 0x80 + h / 64 % 64 := by omega
  have hlow : 0xE0 + l / 4096 = 0xED ∧ isCont (0x80 + l / 64 % 64) ∧
      0xB0 ≤ 0x80 + l / 64 % 64 ∧ isCont (0x80 + l % 64) :=
    ⟨by omega, ⟨by omega, by omega⟩, by omega, ⟨by omega, by omega⟩⟩
  have hv : 0x10000 +
      (0xD000 + (0x80 + h / 64 % 64 - 0x80) * 64 + (0x80 + h % 64 - 0x80) - 0xD800) * 1024 +
      (0xD000 + (0x80 + l / 64 % 64 - 0x80) * 64 + (0x80 + l % 64 - 0x80) - 0xDC00) =
      0x10000 + (h - 0xD800) * 1024 + (l - 0xDC00) := by omega
  simp only [utf8Three, List.cons_append, List.nil_append]
  rw [cesu8Decode.eq_def]
  simp only [if_neg ha, if_neg hb, if_pos hcnd, if_pos hcont, if_pos hsur, if_pos hlow, hv]

theorem cesu8Decode_encodeChar (c : Nat) (hc : ValidChar c) (rest : List Nat) :
    cesu8Decode (encodeChar c ++ rest) = (cesu8Decode rest).map (fun s => c :: s) := by
  rcases Nat.eq_zero_or_pos c with h0 | h0
  · subst h0
    have ha : ¬ ((0xC0 : Nat) < 0x80) := by omega
    have hb : (0xC0 : Nat) ≤ 0xC0 ∧ (0xC0 : Nat) ≤ 0xDF := by omega
    have hcont : isCont 0x80 := ⟨by omega, by omega⟩
    simp only [encodeChar_eq_nul, List.cons_append, List.nil_append]
    rw [cesu8Decode.eq_def]
    simp only [if_neg ha, if_pos hb, if_pos hcont]
  · by_cases h1 : c < 0x80
    · rw [encodeChar_eq_ascii c (by omega) h1]
      simp only [List.cons_append, List.nil_append]
      rw [cesu8Decode.eq_def]
      simp only [if_pos h1]
    · by_cases h2 : c < 0x800
      · rw [encodeChar_eq_two c (by omega) h2]
        have ha : ¬ (0xC0 + c / 64 < 0x80) := by omega
        have hb : 0xC0 ≤ 0xC0 + c / 64 ∧ 0xC0 + c / 64 ≤ 0xDF := by omega
        have hcont : isCont (0x80 + c % 64) := ⟨by omega, by omega⟩
        have hv : (0xC0 + c / 64 - 0xC0) * 64 + (0x80 + c % 64 - 0x80) = c := by omega
        simp only [List.cons_append, List.nil_append]
        rw [cesu8Decode.eq_def]
        simp only [if_neg ha, if_pos hb, if_pos hcont, hv]
      · by_cases h3 : c < 0x10000
        · rw [encodeChar_eq_three c (by omega) h3]
          refine cesu8Decode_three c (by omega) h3 ?_ rest
          unfold ValidChar at hc
          omega
        · rw [encodeChar_eq_pair c (by omega), List.append_assoc]
          have hcθ : c < 0x110000 := by
            unfold ValidChar at hc
            omega
          rw [cesu8Decode_pair (0xD800 + (c - 0x10000) / 1024)
            (0xDC00 + (c - 0x10000) % 1024) (by omega) (by omega) (by omega) (by omega) rest]
          have hv : 0x10000 + (0xD800 + (c - 0x10000) / 1024 - 0xD800) * 1024 +
              (0xDC00 + (c - 0x10000) % 1024 - 0xDC00) = c := by omega
          simp only [hv]

theorem cesu8Decode_to_java (s : List Nat) (hs : ∀ c ∈ s, ValidChar c) :
    cesu8Decode (to_java_cesu8 s) = some s := by
  induction s with
  | nil => rfl
  | cons c s' ih =>
    unfold to_java_cesu8
    rw [List.map_cons, List.flatten_cons]
    rw [cesu8Decode_encodeChar c (hs c (List.mem_cons_self c s'))]
    have := ih (fun x hx => hs x (List.mem_cons_of_mem c hx))
    unfold to_java_cesu8 at this
    rw [this]
    rfl

/-! ### Decoding an encoded character: the UTF-8 fast path -/

theorem utf8Decode_encodeChar_clean (c : Nat) (hc : ValidChar c) (h0 : c ≠ 0)
    (h3 : c < 0x10000) (rest : List Nat) :
    utf8Decode (encodeChar c ++ rest) = (utf8Decode rest).map (fun s => c :: s) := by
  unfold ValidChar at hc
  by_cases h1 : c < 0x80
  · rw [encodeChar_eq_ascii c h0 h1]
    simp only [List.cons_append, List.nil_append]
    rw [utf8Decode.eq_def]
    simp only [if_pos h1]
  · by_cases h2 : c < 0x800
    · rw [encodeChar_eq_two c (by omega) h2]
      have ha : ¬ (0xC0 + c / 64 < 0x80) := by omega
      have hb : 0xC2 ≤ 0xC0 + c / 64 ∧ 0xC0 + c / 64 ≤ 0xDF := by omega
      have hcont : isCont (0x80 + c % 64) := ⟨by omega, by omega⟩
      have hv : (0xC0 + c / 64 - 0xC0) * 64 + (0x80 + c % 64 - 0x80) = c := by omega
      simp only [List.cons_append, List.nil_append]
      rw [utf8Decode.eq_def]
      simp only [if_neg ha, if_pos hb, if_pos hcont, hv]
    · rw [encodeChar_eq_three c (by omega) h3]
      have ha : ¬ (0xE0 + c / 4096 < 0x80) := by omega
      have hb : ¬ (0xC2 ≤ 0xE0 + c / 4096 ∧ 0xE0 + c / 4096 ≤ 0xDF) := by omega
      have hcnd : 0xE0 ≤ 0xE0 + c / 4096 ∧ 0xE0 + c / 4096 ≤ 0xEF := by omega
      have hguard : isCont (0x80 + c / 64 % 64) ∧ isCont (0x80 + c % 64) ∧
          (0xE0 + c / 4096 = 0xE0 → 0xA0 ≤ 0x80 + c / 64 % 64) ∧
          (0xE0 + c / 4096 = 0xED → 0x80 + c / 64 % 64 < 0xA0) := by
        refine ⟨⟨by omega, by omega⟩, ⟨by omega, by omega⟩, ?_, ?_⟩
        · intro h
          omega
        · intro h
          omega
      have hv : (0xE0 + c / 4096 - 0xE0) * 4096 + (0x80 + c / 64 % 64 - 0x80) * 64 +
          (0x80 + c % 64 - 0x80) = c := by omega
      simp only [utf8Three, List.cons_append, List.nil_append]
      rw [utf8Decode.eq_def]
      simp only [if_neg ha, if_neg hb, if_pos hcnd, if_pos hguard, hv]

theorem utf8Decode_nul_start (rest : List Nat) :
    utf8Decode ((0xC0 : Nat) :: 0x80 :: rest) = none := by
  have ha : ¬ ((0xC0 : Nat) < 0x80) := by omega
  have hb : ¬ ((0xC2 : Nat) ≤ 0xC0 ∧ (0xC0 : Nat) ≤ 0xDF) := by omega
  have hc3 : ¬ ((0xE0 : Nat) ≤ 0xC0 ∧ (0xC0 : Nat) ≤ 0xEF) := by omega
  have hc4 : ¬ ((0xF0 : Nat) ≤ 0xC0 ∧ (0xC0 : Nat) ≤ 0xF4) := by omega
  rw [utf8Decode.eq_def]
  simp only [if_neg ha, if_neg hb]
  cases rest with
  | nil => rfl
  | cons b3 bs3 =>
    simp only [if_neg hc3]
    cases bs3 with
    | nil => rfl
    | cons b4 bs4 => simp only [if_neg hc4]

theorem utf8Decode_surrogate_none (u : Nat) (h1 : 0xD800 ≤ u) (h2 : u < 0xE000)
    (tail : List Nat) : utf8Decode (utf8Three u ++ tail) = none := by
  have ha : ¬ (0xE0 + u / 4096 < 0x80) := by omega
  have hb : ¬ (0xC2 ≤ 0xE0 + u / 4096 ∧ 0xE0 + u / 4096 ≤ 0xDF) := by omega
  have hcnd : 0xE0 ≤ 0xE0 + u / 4096 ∧ 0xE0 + u / 4096 ≤ 0xEF := by omega
  have hguard : ¬ (isCont (0x80 + u / 64 % 64) ∧ isCont (0x80 + u % 64) ∧
      (0xE0 + u / 4096 = 0xE0 → 0xA0 ≤ 0x80 + u / 64 % 64) ∧
      (0xE0 + u / 4096 = 0xED → 0x80 + u / 64 % 64 < 0xA0)) := by
    intro h
    have := h.2.2.2 (by omega)
    omega
  simp only [utf8Three, List.cons_append, List.nil_append]
  rw [utf8Decode.eq_def]
  simp only [if_neg ha, if_neg hb, if_pos hcnd, if_neg hguard]

theorem utf8Decode_encodeChar_dirty (c : Nat) (hc : ValidChar c)
    (hd : c = 0 ∨ 0x10000 ≤ c) (rest : List Nat) :
    utf8Decode (encodeChar c ++ rest) = none := by
  rcases hd with h0 | hbig
  · subst h0
    rw [encodeChar_eq_nul]
    exact utf8Decode_nul_start rest
  · unfold ValidChar at hc
    rw [encodeChar_eq_pair c hbig, List.append_assoc]
    exact utf8Decode_surrogate_none (0xD800 + (c - 0x10000) / 1024) (by omega) (by omega) _

theorem utf8Decode_to_java (s : List Nat) (hs : ∀ c ∈ s, ValidChar c) :
    ((∀ c ∈ s, c ≠ 0 ∧ c < 0x10000) ∧ utf8Decode (to_java_cesu8 s) = some s) ∨
      utf8Decode (to_java_cesu8 s) = none := by
  induction s with
  | nil => exact Or.inl ⟨by simp, rfl⟩
  | cons c s' ih =>
    have hc : ValidChar c := hs c (List.mem_cons_self c s')
    have hflat : to_java_cesu8 (c :: s') = encodeChar c ++ to_java_cesu8 s' := by
      unfold to_java_cesu8
      rw [List.map_cons, List.flatten_cons]
    by_cases hclean : c ≠ 0 ∧ c < 0x10000
    · rcases ih (fun x hx => hs x (List.mem_cons_of_mem c hx)) with ⟨hall, hsome⟩ | hnone
      · refine Or.inl ⟨?_, ?_⟩
        · intro x hx
          rcases List.mem_cons.mp hx with hx | hx
          · subst hx; exact hclean
          · exact hall x hx
        · rw [hflat, utf8Decode_encodeChar_clean c hc hclean.1 hclean.2, hsome]
          rfl
      · refine Or.inr ?_
        rw [hflat, utf8Decode_encodeChar_clean c hc hclean.1 hclean.2, hnone]
        rfl
    · refine Or.inr ?_
      rw [hflat, utf8Decode_encodeChar_dirty c hc (by omega)]

/-- Round trip of the `cesu8` crate codec: decoding an encoded string of
Unicode scalar values recovers exactly that string. -/
theorem from_java_to_java (s : List Nat) (hs : ∀ c ∈ s, ValidChar c) :
    from_java_cesu8 (to_java_cesu8 s) = some s := by
  unfold from_java_cesu8
  rcases utf8Decode_to_java s hs with ⟨_, hsome⟩ | hnone
  · rw [hsome]
  · rw [hnone]
    exact cesu8Decode_to_java s hs

/-! ### Reading a well-formed string from a good source -/

theorem read_string_good (e : Endian) (src : Source) (p1 p2 : Nat)
    (body rest name : List Nat) (hg : Good src)
    (hj : src.flatten = p1 :: p2 :: (body ++ rest))
    (hlen : ordVal e [p1, p2] = body.length)
    (hdec : from_java_cesu8 body = some name) :
    ∃ src', read_bare_string e src = .ok (name, src') ∧
      src'.flatten = rest ∧ Good src' := by
  have h2 : 2 ≤ src.flatten.length := by rw [hj]; simp
  obtain ⟨src1, hex, hj1, hg1⟩ := readExact_good src 2 hg h2
  have htake : src.flatten.take 2 = [p1, p2] := by rw [hj]; rfl
  have hdrop : src1.flatten = body ++ rest := by rw [hj1, hj]; rfl
  rw [htake] at hex
  by_cases hL : body.length = 0
  · have hbody : body = [] := List.eq_nil_of_length_eq_zero hL
    subst hbody
    have hname : name = [] := by
      have : some ([] : List Nat) = some name := by rw [← hdec]; rfl
      exact (Option.some.injEq _ _ ▸ this).symm
    subst hname
    refine ⟨src1, ?_, by simpa using hdrop, hg1⟩
    unfold read_bare_string
    rw [hex]
    simp [hlen]
  · have hle : body.length ≤ src1.flatten.length := by
      rw [hdrop, List.length_append]
      omega
    obtain ⟨src2, hloop, hj2, hg2⟩ := readLoop_good src1 body.length hg1 hle
    have htk : src1.flatten.take body.length = body := by
      rw [hdrop, List.take_append_eq_append_take, List.take_of_length_le (le_refl _),
        Nat.sub_self, List.take_zero, List.append_nil]
    have hdr : src2.flatten = rest := by
      rw [hj2, hdrop, List.drop_append_eq_append_drop, List.drop_of_length_le (le_refl _),
        Nat.sub_self, List.drop_zero, List.nil_append]
    refine ⟨src2, ?_, hdr, hg2⟩
    unfold read_bare_string
    rw [hex]
    simp only [hlen, if_neg hL, hloop, htk, hdec]

/-! ### Scalar encode/decode round trips -/

theorem readExact_single (c : List Nat) (h : c ≠ ([] : List Nat)) :
    readExact [c] c.length = some (c, []) := by
  have hg : Good [c] := by
    intro x hx
    rcases List.mem_singleton.mp hx with rfl
    exact h
  obtain ⟨src', heq, hj, hg'⟩ :=
    readExact_good [c] c.length hg (by simp)
  have hsrc' : src' = [] := Good_nil src' hg' (by simpa using hj)
  subst hsrc'
  simpa using heq

theorem ordBytes_ne_nil (e : Endian) (w n : Nat) (hw : 0 < w) :
    ordBytes e w n ≠ ([] : List Nat) := by
  intro h
  have := ordBytes_length e w n
  rw [h] at this
  simp at this
  omega

theorem scalar_roundtrip_aux (e : Endian) (w W : Nat) (hW : W = 8 * w) (hw : 1 ≤ w)
    (v : Int) (h1 : -((2 ^ (W - 1) : Nat) : Int) ≤ v) (h2 : v < ((2 ^ (W - 1) : Nat) : Int)) :
    fromTwos W (ordVal e (ordBytes e w (toTwos W v))) = v := by
  subst hW
  rw [ordVal_ordBytes, Nat.mod_eq_of_lt (toTwos_lt (8 * w) v),
    fromTwos_toTwos (8 * w) (by omega) v h1 h2]

theorem readExact_ordBytes (e : Endian) (w n : Nat) (hw : 0 < w) :
    readExact [ordBytes e w n] w = some (ordBytes e w n, []) := by
  have h := readExact_single (ordBytes e w n) (ordBytes_ne_nil e w n hw)
  rwa [ordBytes_length] at h

theorem readExact_exact_chunk (b : Nat) (bs : List Nat) (cs : Source) :
    readExact ((b :: bs) :: cs) (bs.length + 1) = some (b :: bs, cs) := by
  simp [readExact]

/-! ### Claim theorems -/

/-- C8: `write_bare_int` produces `FF FF FF FF` for the value `-1` under both
byte orders, and `00 00 00 01` (big-endian) versus `01 00 00 00`
(little-endian) for the value `1`. -/
theorem write_bare_int_examples :
    write_bare_int .be (-1) = [0xFF, 0xFF, 0xFF, 0xFF] ∧
    write_bare_int .le (-1) = [0xFF, 0xFF, 0xFF, 0xFF] ∧
    write_bare_int .be 1 = [0x00, 0x00, 0x00, 0x01] ∧
    write_bare_int .le 1 = [0x01, 0x00, 0x00, 0x00] := by
  refine ⟨?_, ?_, ?_, ?_⟩ <;> decide

/-- C2: every scalar write followed by the matching read under the same byte
order returns the value exactly; floats are handled bit-for-bit (they are
represented by their IEEE-754 bit patterns). -/
theorem scalar_write_read_roundtrip (e : Endian) (b s i l : Int) (f d : Nat)
    (hb1 : -0x80 ≤ b) (hb2 : b < 0x80)
    (hs1 : -0x8000 ≤ s) (hs2 : s < 0x8000)
    (hi1 : -0x80000000 ≤ i) (hi2 : i < 0x80000000)
    (hl1 : -0x8000000000000000 ≤ l) (hl2 : l < 0x8000000000000000)
    (hf : f < 0x100000000) (hd : d < 0x10000000000000000) :
    read_bare_byte [write_bare_byte b] = .ok (b, []) ∧
    read_bare_short e [write_bare_short e s] = .ok (s, []) ∧
    read_bare_int e [write_bare_int e i] = .ok (i, []) ∧
    read_bare_long e [write_bare_long e l] = .ok (l, []) ∧
    read_bare_float e [write_bare_float e f] = .ok (f, []) ∧
    read_bare_double e [write_bare_double e d] = .ok (d, []) := by
  refine ⟨?_, ?_, ?_, ?_, ?_, ?_⟩
  · have hne : leBytes 1 (toTwos 8 b) ≠ ([] : List Nat) := by
      intro h
      have := leBytes_length 1 (toTwos 8 b)
      rw [h] at this
      simp at this
    have hx := readExact_single _ hne
    rw [leBytes_length] at hx
    unfold read_bare_byte write_bare_byte
    simp only [hx]
    rw [leVal_leBytes, Nat.mod_eq_of_lt (by
      have := toTwos_lt 8 b
      have h18 : (2 : Nat) ^ (8 * 1) = 2 ^ 8 := by norm_num
      omega)]
    rw [fromTwos_toTwos 8 (by norm_num) b
      (by have : ((2 ^ (8 - 1) : Nat) : Int) = 0x80 := by norm_num
          omega)
      (by have : ((2 ^ (8 - 1) : Nat) : Int) = 0x80 := by norm_num
          omega)]
  · unfold read_bare_short write_bare_short
    simp only [readExact_ordBytes e 2 _ (by norm_num)]
    rw [scalar_roundtrip_aux e 2 16 (by norm_num) (by norm_num) s
      (by have : ((2 ^ (16 - 1) : Nat) : Int) = 0x8000 := by norm_num
          omega)
      (by have : ((2 ^ (16 - 1) : Nat) : Int) = 0x8000 := by norm_num
          omega)]
  · unfold read_bare_int write_bare_int
    simp only [readExact_ordBytes e 4 _ (by norm_num)]
    rw [scalar_roundtrip_aux e 4 32 (by norm_num) (by norm_num) i
      (by have : ((2 ^ (32 - 1) : Nat) : Int) = 0x80000000 := by norm_num
          omega)
      (by have : ((2 ^ (32 - 1) : Nat) : Int) = 0x80000000 := by norm_num
          omega)]
  · unfold read_bare_long write_bare_long
    simp only [readExact_ordBytes e 8 _ (by norm_num)]
    rw [scalar_roundtrip_aux e 8 64 (by norm_num) (by norm_num) l
      (by have : ((2 ^ (64 - 1) : Nat) : Int) = 0x8000000000000000 := by norm_num
          omega)
      (by have : ((2 ^ (64 - 1) : Nat) : Int) = 0x8000000000000000 := by norm_num
          omega)]
  · unfold read_bare_float write_bare_float
    have hv : ordVal e (ordBytes e 4 (f % 4294967296)) = f := by
      rw [ordVal_ordBytes, show (2 : Nat) ^ (8 * 4) = 4294967296 from by norm_num]
      omega
    simp [readExact_ordBytes e 4 _ (by norm_num), hv]
  · unfold read_bare_double write_bare_double
    have hv : ordVal e (ordBytes e 8 (d % 18446744073709551616)) = d := by
      rw [ordVal_ordBytes, show (2 : Nat) ^ (8 * 8) = 18446744073709551616 from by norm_num]
      omega
    simp [readExact_ordBytes e 8 _ (by norm_num), hv]

/-- C7: when the 2-byte length prefix decodes to 0, `read_bare_string`
returns the empty string at once: the rest of the source is untouched (no
further read call happens), so exactly 2 bytes are consumed. -/
theorem read_string_zero_length (e : Endian) (b1 b2 : Nat) (cs : Source)
    (h1 : b1 < 256) (h2 : b2 < 256) (h0 : ordVal e [b1, b2] = 0) :
    read_bare_string e ([b1, b2] :: cs) = .ok ([], cs) := by
  have hex : readExact ([b1, b2] :: cs) 2 = some ([b1, b2], cs) := by
    have h := readExact_exact_chunk b1 [b2] cs
    norm_num at h
    exact h
  unfold read_bare_string
  rw [hex]
  simp [h0]

/-- C5: if the declared string length is positive and the source produces a
zero-byte read before that many body bytes have been accumulated (either
because it is exhausted or because a read call returns 0 bytes early), the
result is the `IncompleteNbtValue` error, not the I/O error. -/
theorem read_string_incomplete (e : Endian) (b1 b2 : Nat) (cs : Source)
    (h1 : b1 < 256) (h2 : b2 < 256) (hpos : 0 < ordVal e [b1, b2])
    (hsrc : cs.flatten.length < ordVal e [b1, b2] ∨
      ∃ pre post, cs = pre ++ ([] : List Nat) :: post ∧
        pre.flatten.length < ordVal e [b1, b2]) :
    read_bare_string e ([b1, b2] :: cs) = .error .incompleteNbtValue := by
  have hex : readExact ([b1, b2] :: cs) 2 = some ([b1, b2], cs) := by
    have h := readExact_exact_chunk b1 [b2] cs
    norm_num at h
    exact h
  unfold read_bare_string
  rw [hex]
  simp only [if_neg (by omega : ¬ ordVal e [b1, b2] = 0)]
  rcases hsrc with h | ⟨pre, post, hcs, hlt⟩
  · simp only [readLoop_short cs (ordVal e [b1, b2]) hpos h]
  · subst hcs
    simp only [readLoop_emptyChunk pre (ordVal e [b1, b2]) post hlt]

/-- C6: a source that delivers the declared number of body bytes across any
number of short (but non-empty) read chunks still succeeds, returning the
decoded string. -/
theorem read_string_chunked (e : Endian) (b1 b2 : Nat) (cs : Source)
    (name : List Nat) (h1 : b1 < 256) (h2 : b2 < 256)
    (hg : ∀ ch ∈ cs, ch ≠ ([] : List Nat))
    (hlen : cs.flatten.length = ordVal e [b1, b2])
    (hdec : from_java_cesu8 cs.flatten = some name) :
    read_bare_string e ([b1, b2] :: cs) = .ok (name, []) := by
  have hgood : Good ([b1, b2] :: cs) := by
    intro x hx
    rcases List.mem_cons.mp hx with hx | hx
    · subst hx; simp
    · exact hg x hx
  obtain ⟨src', hr, hj, hg'⟩ := read_string_good e ([b1, b2] :: cs) b1 b2
    cs.flatten [] name hgood
    (by rw [List.flatten_cons, List.append_nil]; rfl)
    hlen.symm hdec
  have hnil : src' = [] := Good_nil src' hg' (by rw [hj])
  subst hnil
  exact hr

/-- C4: reading a header from a stream starting with `0x00` yields
`(tag 0, empty name)` consuming exactly one byte; from a stream starting
with a non-zero tag byte followed by a valid length-prefixed string it
yields the tag and the decoded name, consuming exactly `1 + 2 + L` bytes
(the remaining bytes of the source are exactly `rest`). -/
theorem emit_next_header_spec :
    (∀ (e : Endian) (rest : List Nat),
      (emit_next_header e [0x00 :: rest]).map (fun p => (p.1, p.2.flatten)) =
        .ok ((0, []), rest)) ∧
    (∀ (e : Endian) (t : Nat) (body name rest : List Nat),
      t ≠ 0 → t < 256 → body.length < 0x10000 →
      from_java_cesu8 body = some name →
      (emit_next_header e [t :: (ordBytes e 2 body.length ++ (body ++ rest))]).map
        (fun p => (p.1, p.2.flatten)) = .ok ((t, name), rest)) := by
  constructor
  · intro e rest
    have hg : Good [0x00 :: rest] := by
      intro x hx
      rcases List.mem_singleton.mp hx with rfl
      simp
    obtain ⟨src1, hex, hj1, hg1⟩ := readExact_good [0x00 :: rest] 1 hg (by simp)
    have hex' : readExact [0x00 :: rest] 1 = some ([0x00], src1) := by simpa using hex
    have hj1' : src1.flatten = rest := by simpa using hj1
    unfold emit_next_header
    simp only [hex']
    simp [leVal, Except.map, hj1']
  · intro e t body name rest ht ht2 hlen hdec
    have hg : Good [t :: (ordBytes e 2 body.length ++ (body ++ rest))] := by
      intro x hx
      rcases List.mem_singleton.mp hx with rfl
      simp
    obtain ⟨src1, hex, hj1, hg1⟩ :=
      readExact_good [t :: (ordBytes e 2 body.length ++ (body ++ rest))] 1 hg (by simp)
    have hex' : readExact [t :: (ordBytes e 2 body.length ++ (body ++ rest))] 1 =
        some ([t], src1) := by simpa using hex
    have hj1' : src1.flatten = ordBytes e 2 body.length ++ (body ++ rest) := by
      simpa using hj1
    obtain ⟨p1, p2, hp⟩ := List.length_eq_two.mp (ordBytes_length e 2 body.length)
    have hval : ordVal e [p1, p2] = body.length := by
      rw [← hp, ordVal_ordBytes]
      have h16 : (2 : Nat) ^ (8 * 2) = 0x10000 := by norm_num
      omega
    obtain ⟨src2, hstr, hj2, hg2⟩ := read_string_good e src1 p1 p2 body rest name hg1
      (by rw [hj1', hp]; rfl) hval hdec
    unfold emit_next_header
    simp only [hex']
    simp [leVal, ht, hstr, Except.map, hj2]

theorem to_java_cesu8_replicate_a (n : Nat) :
    to_java_cesu8 (List.replicate n 97) = List.replicate n 97 := by
  induction n with
  | zero => rfl
  | succ n ih =>
    unfold to_java_cesu8 at ih ⊢
    rw [List.replicate_succ, List.map_cons, List.flatten_cons, ih,
      show encodeChar 97 = [97] from rfl]
    rfl

/-- C1 (amended): for every string of Unicode scalar values whose CESU-8
encoding fits the 2-byte length prefix (at most 65535 bytes) — which covers
the empty string, ASCII, the null code point and supplementary-plane
characters — writing then reading under the same byte order returns exactly
the original string consuming exactly the written bytes, and the 2-byte
length prefix equals the encoded byte length (not the character count). -/
theorem write_read_string_roundtrip (e : Endian) (s : List Nat)
    (hval : ∀ c ∈ s, ValidChar c)
    (hlen : (to_java_cesu8 s).length ≤ 0xFFFF) :
    (read_bare_string e [write_bare_string e s]).map (fun p => (p.1, p.2.flatten)) =
      .ok (s, []) ∧
    ordVal e ((write_bare_string e s).take 2) = (to_java_cesu8 s).length := by
  obtain ⟨p1, p2, hp⟩ :=
    List.length_eq_two.mp (ordBytes_length e 2 ((to_java_cesu8 s).length % 2 ^ 16))
  have hval2 : ordVal e [p1, p2] = (to_java_cesu8 s).length := by
    rw [← hp, ordVal_ordBytes]
    have h16 : (2 : Nat) ^ (8 * 2) = 2 ^ 16 := by norm_num
    omega
  constructor
  · have hg : Good [write_bare_string e s] := by
      intro x hx
      rcases List.mem_singleton.mp hx with rfl
      unfold write_bare_string
      intro hnil
      have hl := congrArg List.length hnil
      rw [List.length_append, ordBytes_length] at hl
      simp at hl
    obtain ⟨src', hr, hj, hg'⟩ := read_string_good e [write_bare_string e s] p1 p2
      (to_java_cesu8 s) [] s hg
      (by
        show (write_bare_string e s) ++ [] = p1 :: p2 :: (to_java_cesu8 s ++ [])
        rw [List.append_nil, List.append_nil]
        unfold write_bare_string
        rw [hp]
        rfl)
      hval2 (from_java_to_java s hval)
    rw [hr]
    simp [Except.map, hj]
  · unfold write_bare_string
    rw [hp]
    exact hval2

/-- C1 (counterexample): at the 65536-character ASCII string, the written
2-byte length prefix decodes to 0, not to the encoded byte length 65536, so
the claim as stated (for every text value) fails once the encoding exceeds
65535 bytes. -/
theorem write_read_string_roundtrip_cex :
    ¬ ((read_bare_string .be [write_bare_string .be (List.replicate 65536 97)]).map
        (fun p => (p.1, p.2.flatten)) = .ok (List.replicate 65536 97, ([] : List Nat)) ∧
      ordVal .be ((write_bare_string .be (List.replicate 65536 97)).take 2) =
        (to_java_cesu8 (List.replicate 65536 97)).length) := by
  intro hcl
  have h2 := hcl.2
  have hL : (to_java_cesu8 (List.replicate 65536 97)).length = 65536 := by
    rw [to_java_cesu8_replicate_a, List.length_replicate]
  have hpfx : (write_bare_string .be (List.replicate 65536 97)).take 2 = [0, 0] := by
    unfold write_bare_string
    rw [hL, show (65536 % 2 ^ 16 : Nat) = 0 from by norm_num,
      show ordBytes .be 2 0 = [0, 0] from rfl]
    rfl
  rw [hpfx, hL] at h2
  norm_num [ordVal, leVal] at h2

/-- C9: when the CESU-8 encoding of a string is longer than 65535 bytes,
`write_bare_string` still writes all encoded bytes after a 2-byte prefix,
but the prefix holds the encoded length reduced modulo `2 ^ 16`, so it does
not match the number of body bytes written. -/
theorem write_string_length_prefix_overflow (e : Endian) (s : List Nat)
    (hbig : 0xFFFF < (to_java_cesu8 s).length) :
    (write_bare_string e s).length = 2 + (to_java_cesu8 s).length ∧
    ordVal e ((write_bare_string e s).take 2) = (to_java_cesu8 s).length % 2 ^ 16 ∧
    ordVal e ((write_bare_string e s).take 2) ≠ ((write_bare_string e s).drop 2).length := by
  obtain ⟨p1, p2, hp⟩ :=
    List.length_eq_two.mp (ordBytes_length e 2 ((to_java_cesu8 s).length % 2 ^ 16))
  have htk : (write_bare_string e s).take 2 = [p1, p2] := by
    unfold write_bare_string
    rw [hp]
    rfl
  have hdr : (write_bare_string e s).drop 2 = to_java_cesu8 s := by
    unfold write_bare_string
    rw [hp]
    rfl
  have hval : ordVal e [p1, p2] = (to_java_cesu8 s).length % 2 ^ 16 := by
    rw [← hp, ordVal_ordBytes]
    have h16 : (2 : Nat) ^ (8 * 2) = 2 ^ 16 := by norm_num
    omega
  refine ⟨?_, ?_, ?_⟩
  · unfold write_bare_string
    rw [List.length_append, ordBytes_length]
  · rw [htk]
    exact hval
  · rw [htk, hdr, hval]
    intro h
    omega

theorem array_read_write_aux (e : Endian) (w : Nat) (hw : 1 ≤ w)
    (dec : List Nat → Int) (enc : Int → List Nat) (xs : List Int)
    (hlen : xs.length < 0x80000000)
    (helem : ∀ v ∈ xs, (enc v).length = w ∧ dec (enc v) = v) :
    (match readExact [ordBytes e 4 (toTwos 32 (xs.length : Int)) ++ (xs.map enc).flatten] 4 with
      | none => (.error .ioError : Except NbtError (List Int × Source))
      | some (bs4, src') =>
        readElems (fun s => (readExact s w).map
            (fun r : List Nat × Source => (dec r.1, r.2)))
          (i32AsUsize (fromTwos 32 (ordVal e bs4))) src') = .ok (xs, ([] : Source)) := by
  have hpfxlen := ordBytes_length e 4 (toTwos 32 (xs.length : Int))
  have hg : Good [ordBytes e 4 (toTwos 32 (xs.length : Int)) ++ (xs.map enc).flatten] := by
    intro x hx
    rcases List.mem_singleton.mp hx with rfl
    intro hnil
    have hl := congrArg List.length hnil
    rw [List.length_append, hpfxlen] at hl
    simp at hl
  obtain ⟨src1, hex, hj1, hg1⟩ := readExact_good _ 4 hg (by
    simp only [List.flatten_cons, List.flatten_nil, List.append_nil, List.length_append,
      hpfxlen]
    omega)
  have htake : (List.flatten [ordBytes e 4 (toTwos 32 (xs.length : Int)) ++
      (xs.map enc).flatten]).take 4 = ordBytes e 4 (toTwos 32 (xs.length : Int)) := by
    simp only [List.flatten_cons, List.flatten_nil, List.append_nil]
    rw [List.take_append_eq_append_take, List.take_of_length_le (le_of_eq hpfxlen),
      hpfxlen, Nat.sub_self, List.take_zero, List.append_nil]
  have hj1' : src1.flatten = (xs.map enc).flatten := by
    rw [hj1]
    simp only [List.flatten_cons, List.flatten_nil, List.append_nil]
    rw [List.drop_append_eq_append_drop, List.drop_of_length_le (le_of_eq hpfxlen),
      hpfxlen, Nat.sub_self, List.drop_zero, List.nil_append]
  rw [htake] at hex
  have hcnt1 : fromTwos 32 (ordVal e (ordBytes e 4 (toTwos 32 (xs.length : Int)))) =
      (xs.length : Int) := by
    refine scalar_roundtrip_aux e 4 32 (by norm_num) (by norm_num) _ ?_ ?_
    · have h31 : ((2 ^ (32 - 1) : Nat) : Int) = 0x80000000 := by norm_num
      omega
    · have h31 : ((2 ^ (32 - 1) : Nat) : Int) = 0x80000000 := by norm_num
      omega
  have hcnt2 : i32AsUsize ((xs.length : Int)) = xs.length := by
    unfold i32AsUsize
    rw [show ((2 ^ 64 : Nat) : Int) = 18446744073709551616 from by norm_num]
    omega
  obtain ⟨src', hre, hj', hg'⟩ := readElems_ok w dec enc xs [] src1 hg1
    (by rw [hj1', List.append_nil]) helem
  have hnil : src' = [] := Good_nil src' hg' (by rw [hj'])
  subst hnil
  simp only [hex]
  rw [hcnt1, hcnt2, hre]

/-- C3: for each array type, writing a sequence whose length fits in a
signed 32-bit count and reading it back under the same byte order returns a
sequence equal to the original in length and element order. -/
theorem array_write_read_roundtrip (e : Endian) (bs is ls : List Int)
    (hbl : bs.length < 0x80000000) (hil : is.length < 0x80000000)
    (hll : ls.length < 0x80000000)
    (hbe : ∀ v ∈ bs, -0x80 ≤ v ∧ v < 0x80)
    (hie : ∀ v ∈ is, -0x80000000 ≤ v ∧ v < 0x80000000)
    (hle : ∀ v ∈ ls, -0x8000000000000000 ≤ v ∧ v < 0x8000000000000000) :
    read_bare_byte_array e [write_bare_byte_array e bs] = .ok (bs, []) ∧
    read_bare_int_array e [write_bare_int_array e is] = .ok (is, []) ∧
    read_bare_long_array e [write_bare_long_array e ls] = .ok (ls, []) := by
  refine ⟨?_, ?_, ?_⟩
  · unfold read_bare_byte_array write_bare_byte_array
    refine array_read_write_aux e 1 (by norm_num) (fun l => fromTwos 8 (leVal l))
      write_bare_byte bs hbl ?_
    intro v hv
    obtain ⟨h1, h2⟩ := hbe v hv
    constructor
    · unfold write_bare_byte
      rw [leBytes_length]
    · unfold write_bare_byte
      show fromTwos 8 (leVal (leBytes 1 (toTwos 8 v))) = v
      rw [leVal_leBytes, Nat.mod_eq_of_lt (by
        have := toTwos_lt 8 v
        have h18 : (2 : Nat) ^ (8 * 1) = 2 ^ 8 := by norm_num
        omega)]
      refine fromTwos_toTwos 8 (by norm_num) v ?_ ?_
      · have h7 : ((2 ^ (8 - 1) : Nat) : Int) = 0x80 := by norm_num
        omega
      · have h7 : ((2 ^ (8 - 1) : Nat) : Int) = 0x80 := by norm_num
        omega
  · unfold read_bare_int_array write_bare_int_array
    refine array_read_write_aux e 4 (by norm_num) (fun l => fromTwos 32 (ordVal e l))
      (write_bare_int e) is hil ?_
    intro v hv
    obtain ⟨h1, h2⟩ := hie v hv
    refine ⟨ordBytes_length e 4 _, ?_⟩
    unfold write_bare_int
    show fromTwos 32 (ordVal e (ordBytes e 4 (toTwos 32 v))) = v
    refine scalar_roundtrip_aux e 4 32 (by norm_num) (by norm_num) v ?_ ?_
    · have h31 : ((2 ^ (32 - 1) : Nat) : Int) = 0x80000000 := by norm_num
      omega
    · have h31 : ((2 ^ (32 - 1) : Nat) : Int) = 0x80000000 := by norm_num
      omega
  · unfold read_bare_long_array write_bare_long_array
    refine array_read_write_aux e 8 (by norm_num) (fun l => fromTwos 64 (ordVal e l))
      (write_bare_long e) ls hll ?_
    intro v hv
    obtain ⟨h1, h2⟩ := hle v hv
    refine ⟨ordBytes_length e 8 _, ?_⟩
    unfold write_bare_long
    show fromTwos 64 (ordVal e (ordBytes e 8 (toTwos 64 v))) = v
    refine scalar_roundtrip_aux e 8 64 (by norm_num) (by norm_num) v ?_ ?_
    · have h63 : ((2 ^ (64 - 1) : Nat) : Int) = 0x8000000000000000 := by norm_num
      omega
    · have h63 : ((2 ^ (64 - 1) : Nat) : Int) = 0x8000000000000000 := by norm_num
      omega

/-- C10: a negative 4-byte array count `c` is reinterpreted by the `as
usize` cast as the sign-extended machine word `2 ^ 64 + c`; the array
readers then attempt to read that many elements — consuming whatever body
bytes follow and failing with the propagated I/O error once the source is
exhausted — rather than rejecting the negative count or treating it as
zero. -/
theorem read_array_negative_count (e : Endian) (c : Int) (rest : List Nat)
    (hc1 : -0x80000000 ≤ c) (hc2 : c < 0)
    (hrest : (rest.length : Int) < 0x10000000000000000 + c) :
    i32AsUsize c = ((0x10000000000000000 : Int) + c).toNat ∧
    read_bare_byte_array e [ordBytes e 4 (toTwos 32 c) ++ rest] = .error .ioError ∧
    read_bare_int_array e [ordBytes e 4 (toTwos 32 c) ++ rest] = .error .ioError ∧
    read_bare_long_array e [ordBytes e 4 (toTwos 32 c) ++ rest] = .error .ioError := by
  have hcnt : i32AsUsize c = ((0x10000000000000000 : Int) + c).toNat := by
    rw [i32AsUsize_of_neg c (by
        have h64 : ((2 ^ 64 : Nat) : Int) = 0x10000000000000000 := by norm_num
        omega) hc2]
    have h64 : ((2 ^ 64 : Nat) : Int) = 0x10000000000000000 := by norm_num
    rw [h64]
  have hpfxlen := ordBytes_length e 4 (toTwos 32 c)
  have hg : Good [ordBytes e 4 (toTwos 32 c) ++ rest] := by
    intro x hx
    rcases List.mem_singleton.mp hx with rfl
    intro hnil
    have hl := congrArg List.length hnil
    rw [List.length_append, hpfxlen] at hl
    simp at hl
  obtain ⟨src1, hex, hj1, hg1⟩ := readExact_good [ordBytes e 4 (toTwos 32 c) ++ rest] 4
    hg (by
      simp only [List.flatten_cons, List.flatten_nil, List.append_nil, List.length_append,
        hpfxlen]
      omega)
  have htake : (List.flatten [ordBytes e 4 (toTwos 32 c) ++ rest]).take 4 =
      ordBytes e 4 (toTwos 32 c) := by
    simp only [List.flatten_cons, List.flatten_nil, List.append_nil]
    rw [List.take_append_eq_append_take, List.take_of_length_le (le_of_eq hpfxlen),
      hpfxlen, Nat.sub_self, List.take_zero, List.append_nil]
  have hj1' : src1.flatten = rest := by
    rw [hj1]
    simp only [List.flatten_cons, List.flatten_nil, List.append_nil]
    rw [List.drop_append_eq_append_drop, List.drop_of_length_le (le_of_eq hpfxlen),
      hpfxlen, Nat.sub_self, List.drop_zero, List.nil_append]
  rw [htake] at hex
  have hcnt1 : fromTwos 32 (ordVal e (ordBytes e 4 (toTwos 32 c))) = c := by
    refine scalar_roundtrip_aux e 4 32 (by norm_num) (by norm_num) c ?_ ?_
    · have h31 : ((2 ^ (32 - 1) : Nat) : Int) = 0x80000000 := by norm_num
      omega
    · have h31 : ((2 ^ (32 - 1) : Nat) : Int) = 0x80000000 := by norm_num
      omega
  have hn : rest.length < i32AsUsize c := by
    rw [hcnt]
    omega
  refine ⟨hcnt, ?_, ?_, ?_⟩
  · unfold read_bare_byte_array
    simp only [hex]
    rw [hcnt1]
    exact readElems_short 1 (fun l => fromTwos 8 (leVal l)) (i32AsUsize c) src1
      (by rw [hj1']; omega)
  · unfold read_bare_int_array
    simp only [hex]
    rw [hcnt1]
    exact readElems_short 4 (fun l => fromTwos 32 (ordVal e l)) (i32AsUsize c) src1
      (by rw [hj1']; omega)
  · unfold read_bare_long_array
    simp only [hex]
    rw [hcnt1]
    exact readElems_short 8 (fun l => fromTwos 64 (ordVal e l)) (i32AsUsize c) src1
      (by rw [hj1']; omega)

/-! ### Concrete instantiations of the claim theorems -/

theorem write_read_string_roundtrip_witness :
    (read_bare_string .be [write_bare_string .be [0, 65, 0x10400]]).map
        (fun p => (p.1, p.2.flatten)) = .ok ([0, 65, 0x10400], []) ∧
    ordVal .be ((write_bare_string .be [0, 65, 0x10400]).take 2) =
      (to_java_cesu8 [0, 65, 0x10400]).length :=
  write_read_string_roundtrip .be [0, 65, 0x10400] (by decide) (by decide)

theorem scalar_write_read_roundtrip_witness :
    read_bare_byte [write_bare_byte (-5)] = .ok (-5, []) ∧
    read_bare_short .be [write_bare_short .be (-300)] = .ok (-300, []) ∧
    read_bare_int .be [write_bare_int .be 123456] = .ok (123456, []) ∧
    read_bare_long .be [write_bare_long .be (-987654321)] = .ok (-987654321, []) ∧
    read_bare_float .be [write_bare_float .be 0x80000000] = .ok (0x80000000, []) ∧
    read_bare_double .be [write_bare_double .be 1] = .ok (1, []) :=
  scalar_write_read_roundtrip .be (-5) (-300) 123456 (-987654321) 0x80000000 1
    (by decide) (by decide) (by decide) (by decide) (by decide) (by decide)
    (by decide) (by decide) (by decide) (by decide)

theorem array_write_read_roundtrip_witness :
    read_bare_byte_array .be [write_bare_byte_array .be [-1, 0, 127]] =
      .ok ([-1, 0, 127], []) ∧
    read_bare_int_array .be [write_bare_int_array .be [-2, 3]] = .ok ([-2, 3], []) ∧
    read_bare_long_array .be [write_bare_long_array .be [-4]] = .ok ([-4], []) :=
  array_write_read_roundtrip .be [-1, 0, 127] [-2, 3] [-4]
    (by decide) (by decide) (by decide) (by decide) (by decide) (by decide)

theorem emit_next_header_spec_witness :
    (emit_next_header .be [0x00 :: [7, 7]]).map (fun p => (p.1, p.2.flatten)) =
      .ok ((0, []), [7, 7]) ∧
    (emit_next_header .be [1 :: (ordBytes .be 2 ([65] : List Nat).length ++
        ([65] ++ [9]))]).map (fun p => (p.1, p.2.flatten)) = .ok ((1, [65]), [9]) :=
  ⟨emit_next_header_spec.1 .be [7, 7],
   emit_next_header_spec.2 .be 1 [65] [65] [9] (by decide) (by decide) (by decide)
     (by decide)⟩

theorem read_string_incomplete_witness :
    read_bare_string .be [[0, 5], [1, 2]] = .error .incompleteNbtValue :=
  read_string_incomplete .be 0 5 [[1, 2]] (by decide) (by decide) (by decide)
    (Or.inl (by decide))

theorem read_string_chunked_witness :
    read_bare_string .be [[0, 2], [72], [105]] = .ok ([72, 105], []) :=
  read_string_chunked .be 0 2 [[72], [105]] [72, 105] (by decide) (by decide)
    (by decide) (by decide) (by decide)

theorem read_string_zero_length_witness :
    read_bare_string .be [[0, 0], [9]] = .ok ([], [[9]]) :=
  read_string_zero_length .be 0 0 [[9]] (by decide) (by decide) (by decide)

theorem write_string_length_prefix_overflow_witness :
    (write_bare_string .be (List.replicate 65536 97)).length =
      2 + (to_java_cesu8 (List.replicate 65536 97)).length ∧
    ordVal .be ((write_bare_string .be (List.replicate 65536 97)).take 2) =
      (to_java_cesu8 (List.replicate 65536 97)).length % 2 ^ 16 ∧
    ordVal .be ((write_bare_string .be (List.replicate 65536 97)).take 2) ≠
      ((write_bare_string .be (List.replicate 65536 97)).drop 2).length :=
  write_string_length_prefix_overflow .be (List.replicate 65536 97)
    (by rw [to_java_cesu8_replicate_a, List.length_replicate]; norm_num)

theorem read_array_negative_count_witness :
    i32AsUsize (-1) = ((0x10000000000000000 : Int) + (-1)).toNat ∧
    read_bare_byte_array .be [ordBytes .be 4 (toTwos 32 (-1)) ++ [3]] =
      .error .ioError ∧
    read_bare_int_array .be [ordBytes .be 4 (toTwos 32 (-1)) ++ [3]] =
      .error .ioError ∧
    read_bare_long_array .be [ordBytes .be 4 (toTwos 32 (-1)) ++ [3]] =
      .error .ioError :=
  read_array_negative_count .be (-1) [3] (by decide) (by decide) (by decide)

end Nbt
